import Mathlib

/-! Verification of the pyronear wildfire dataset tooling: a shallow embedding of
FrameExtractor (pyronear/datasets/wildfire/frame_extractor.py) and of the
WildFireSplitter exercised by test/test_datasets.py, with theorems checking the
natural-language specification against it. -/

/-- A row of the states table: a contiguous frame range in one source video
(columns stateStart, stateEnd, fBase); further metadata columns of the row pass
through untouched and are modelled as an association list. -/
structure State where
  stateStart : ℕ
  stateEnd : ℕ
  fBase : String
  meta : List (String × String) := []
deriving Repr, DecidableEq

/-- The data carried by the ValueError raised in _pick_frames when the frame
range is too small: the message names the available count, the requested count
and the offending segment's video fBase. -/
structure InsufficientRange where
  available : ℕ
  requested : ℕ
  fBase : String
deriving Repr, DecidableEq

/-- np.random.seed(s): the state of the global numpy generator after seeding is
a function of s alone. -/
def npSeed (s : ℕ) : ℕ := s

/-- One step of the modelled global generator returning a raw draw and the next
state. The Mersenne Twister is modelled by a linear congruential generator; all
theorems below hold for any deterministic generator. -/
def rngNext (g : ℕ) : ℕ × ℕ :=
  let g2 := (6364136223846793005 * g + 1442695040888963407) % (2 ^ 64)
  (g2 / 2 ^ 33, g2)

/-- Draws with replacement: n independent draws from {lo, ..., lo+len-1},
threading the generator state. -/
def drawRep (lo len : ℕ) : ℕ → ℕ → List ℕ × ℕ
  | 0, g => ([], g)
  | m + 1, g =>
    let p := rngNext g
    let q := drawRep lo len m p.2
    ((lo + p.1 % len) :: q.1, q.2)

/-- Draws without replacement: n draws from the pool, removing each drawn
element, threading the generator state. -/
def drawNoRep : ℕ → List ℕ → ℕ → List ℕ × ℕ
  | 0, _, g => ([], g)
  | m + 1, pool, g =>
    let p := rngNext g
    let i := p.1 % pool.length
    let q := drawNoRep m (pool.eraseIdx i) p.2
    (pool.getD i 0 :: q.1, q.2)

/-- np.random.choice(range(lo, lo + len), size = n, replace = replace) under the
modelled generator. -/
def npChoice (g lo len n : ℕ) (replace : Bool) : List ℕ × ℕ :=
  if replace then drawRep lo len n g
  else drawNoRep n (List.range' lo len) g

/-- np.linspace(start, stop, num, dtype=int): num evenly spaced samples over
[start, stop] inclusive, cast to int. numpy computes start + (i*(stop-start))/(num-1)
multiplying before dividing, and the int cast truncates; on the natural-number
frame indices used here this is exactly the floor division below. -/
def linspace_int (start stop num : ℕ) : List ℕ :=
  (List.range num).map fun i =>
    if num ≤ 1 then start else start + i * (stop - start) / (num - 1)

/-- The spec's wording of the evenly strategy, stated for comparison with
linspace_int: linear interpolation between start and stop rounded to the
NEAREST integer, i.e. floor(x + 1/2) of start + i*(stop-start)/(num-1). -/
def linspace_round (start stop num : ℕ) : List ℕ :=
  (List.range num).map fun i =>
    if num ≤ 1 then start
    else start + (2 * (i * (stop - start)) + (num - 1)) / (2 * (num - 1))

instance {ε α : Type} [DecidableEq ε] [DecidableEq α] : DecidableEq (Except ε α)
  | .error e, .error f => if h : e = f then .isTrue (by rw [h]) else .isFalse (by simp [h])
  | .error _, .ok _ => .isFalse (by simp)
  | .ok _, .error _ => .isFalse (by simp)
  | .ok a, .ok b => if h : a = b then .isTrue (by rw [h]) else .isFalse (by simp [h])

/-- The outcome of one _pick_frames call: the selected frame indices and
whether the duplicate warning was emitted. -/
structure PickResult where
  frames : List ℕ
  warned : Bool
deriving Repr, DecidableEq

/-- Shallow embedding of FrameExtractor._pick_frames. g is the incoming global
numpy generator state; the function reseeds it from seed first (np.random.seed),
so g itself is never consulted. Python's range(start, end+1) has length
end + 1 - start (truncated at 0). The ValueError raised when the range is too
small and duplicates are disallowed is the error case; the success case carries
the selected frames, the warning flag and the outgoing generator state. -/
def pick_frames (g : ℕ) (state : State) (n_frames : ℕ) (random : Bool)
    (allow_duplicates : Bool) (seed : ℕ) :
    Except InsufficientRange (PickResult × ℕ) :=
  let g1 := npSeed seed
  let frames_range_len := state.stateEnd + 1 - state.stateStart
  if frames_range_len < n_frames ∧ ¬allow_duplicates then
    .error ⟨frames_range_len, n_frames, state.fBase⟩
  else
    let warned := decide (frames_range_len < n_frames)
    if random then
      let p := npChoice g1 state.stateStart frames_range_len n_frames allow_duplicates
      .ok (⟨p.1, warned⟩, p.2)
    else
      .ok (⟨linspace_int state.stateStart state.stateEnd n_frames, warned⟩, g1)

/-- Lexicographic order on character lists by Unicode code point, as Python
compares the strings of the fBase column. -/
def charListLe : List Char → List Char → Bool
  | [], _ => true
  | _ :: _, [] => false
  | a :: as, b :: bs => if a = b then charListLe as bs else decide (a.toNat < b.toNat)

/-- Python string comparison used by the pandas sort on the fBase column. -/
def strLe (a b : String) : Bool := charListLe a.data b.data

/-- pathlib.Path(name).stem: the file name without its last suffix
(e.g. "952.mp4" becomes "952"), for the ordinary video file names used here. -/
def stem (name : String) : String :=
  let r := name.data.reverse
  if '.' ∈ r then String.mk ((r.drop ((r.takeWhile fun c => decide (c ≠ '.')).length + 1)).reverse)
  else name

/-- One row of the frame label table: the originating state row's columns
unchanged, plus the frame column and the imgFile column. -/
structure LabelRow where
  state : State
  frame : ℕ
  imgFile : String
deriving Repr, DecidableEq

/-- Builds a label row: imgFile is Path(fBase).stem + "_frame" + frame + ".png". -/
def mkLabelRow (s : State) (f : ℕ) : LabelRow :=
  ⟨s, f, stem s.fBase ++ "_frame" ++ toString f ++ ".png"⟩

/-- The sort key of df.sort_values(with columns fBase then frame): fBase
string order first, then the frame number. -/
def labelLe (x y : LabelRow) : Bool :=
  if x.state.fBase = y.state.fBase then decide (x.frame ≤ y.frame)
  else strLe x.state.fBase y.state.fBase

/-- states.apply(_pick_frames, axis=1): one list of selected frames per state
row in order, threading the global generator state; the first ValueError
aborts the whole computation. -/
def pickAll (n_frames : ℕ) (random allow_duplicates : Bool) (seed : ℕ) :
    ℕ → List State → Except InsufficientRange (List (List ℕ) × ℕ)
  | g, [] => .ok ([], g)
  | g, s :: rest =>
    match pick_frames g s n_frames random allow_duplicates seed with
    | .error e => .error e
    | .ok (r, g2) =>
      match pickAll n_frames random allow_duplicates seed g2 rest with
      | .error e => .error e
      | .ok (l, g3) => .ok (r.frames :: l, g3)

/-- pd.melt(states.join(frames), id_vars = state columns, value_vars =
range(n_frames)) followed by the imgFile column: one row per (value column v,
state row), in melt's column-major order. -/
def meltRows (states : List State) (framesList : List (List ℕ)) (n_frames : ℕ) :
    List LabelRow :=
  (List.range n_frames).flatMap fun v =>
    (states.zip framesList).map fun p => mkLabelRow p.1 (p.2.getD v 0)

/-- Shallow embedding of FrameExtractor._get_frame_labels: pick frames for
every state, melt into one row per selected frame, add imgFile, and sort by
fBase then frame. -/
def get_frame_labels (g : ℕ) (states : List State) (n_frames : ℕ)
    (random : Bool) (allow_duplicates : Bool) (seed : ℕ) :
    Except InsufficientRange (List LabelRow × ℕ) :=
  match pickAll n_frames random allow_duplicates seed g states with
  | .error e => .error e
  | .ok (fl, g2) =>
    .ok (List.insertionSort (fun x y => labelLe x y = true) (meltRows states fl n_frames), g2)

/-- The data of the IOError raised when a video frame cannot be read. -/
structure FrameReadError where
  frame : ℕ
  fBase : String
deriving Repr, DecidableEq

/-- The group keys of labels.groupby(fBase): distinct fBase values in sorted
order, as pandas iterates groups. -/
def fBaseKeys (labels : List LabelRow) : List String :=
  List.insertionSort (fun a b => strLe a b = true) ((labels.map fun r => r.state.fBase).dedup)

/-- The row iteration order of _write_frames: for each group key in sorted
order, the group's rows in table order. -/
def groupby_rows (labels : List LabelRow) : List LabelRow :=
  (fBaseKeys labels).flatMap fun k => labels.filter fun r => decide (r.state.fBase = k)

/-- The write loop inside _write_frames: for each row, seek and read the frame
(readable models cv2 read success for a given video name and frame index), then
imwrite appends the image file to the filesystem; a read failure raises IOError
at once, leaving the files already written in place. The filesystem is the
list of written file names in order. -/
def writeLoop (readable : String → ℕ → Bool) :
    List LabelRow → List String → Option FrameReadError × List String
  | [], fs => (none, fs)
  | r :: rest, fs =>
    if readable r.state.fBase r.frame then
      writeLoop readable rest (fs ++ [r.imgFile])
    else (some ⟨r.frame, r.state.fBase⟩, fs)

/-- Shallow embedding of FrameExtractor._write_frames. -/
def write_frames (readable : String → ℕ → Bool) (labels : List LabelRow)
    (fs : List String) : Option FrameReadError × List String :=
  writeLoop readable (groupby_rows labels) fs

/-- The exceptions FrameExtractor.run can propagate. -/
inductive RunError where
  | insufficientRange (e : InsufficientRange)
  | frameRead (e : FrameReadError)
deriving Repr, DecidableEq

/-- Shallow embedding of FrameExtractor.run: compute the frame labels (any
InsufficientRange error aborts before anything is written), write the labels
CSV named after the states file, then write the frames group by group. -/
def run (readable : String → ℕ → Bool) (states : List State) (basename : String)
    (random : Bool) (n_frames : ℕ) (allow_duplicates : Bool) (seed g : ℕ)
    (fs : List String) : Option RunError × List String :=
  match get_frame_labels g states n_frames random allow_duplicates seed with
  | .error e => (some (.insufficientRange e), fs)
  | .ok (labels, _) =>
    let fs1 := fs ++ [basename ++ ".labels.csv"]
    match write_frames readable labels fs1 with
    | (some e, fs2) => (some (.frameRead e), fs2)
    | (none, fs2) => (none, fs2)

/-- Projects the frames component out of a _pick_frames outcome. -/
def framesOf : Except InsufficientRange (PickResult × ℕ) → Option (List ℕ)
  | .ok (r, _) => some r.frames
  | .error _ => none

/-- Modelled from the spec: the ConfigurationError of the WildFireSplitter,
whose implementation is not among the sources (only test/test_datasets.py and
the specification describe it). -/
inductive ConfigurationError where
  | ratiosExceedOne
  | unsupportedAlgorithm (name : String)
deriving Repr, DecidableEq

/-- Modelled from the spec: a WildFireSplitter after construction; the
requested name-to-fraction ratios (floats modelled as exact rationals), the
splitting algorithm name and the seed, stored as given. -/
structure Splitter where
  ratios : List (String × ℚ)
  algorithm : String
  seed : ℕ
deriving Repr, DecidableEq

/-- Modelled from the spec: the algorithm names WildFireSplitter.fit supports;
the tests rely on the default working and on the name wtf being rejected at
fit time. -/
def algorithms_allowed : List String := ["auto"]

/-- Modelled from the spec: WildFireSplitter construction. It fails with
ConfigurationError when the requested ratios sum to more than 1 (floating
tolerance is modelled by exact rational arithmetic); the algorithm name is not
validated here but lazily at fit time. -/
def splitterInit (ratios : List (String × ℚ)) (algorithm : String) (seed : ℕ) :
    Except ConfigurationError Splitter :=
  if 1 < (ratios.map Prod.snd).sum then .error .ratiosExceedOne
  else .ok ⟨ratios, algorithm, seed⟩

/-- A row of the sequence-grouped dataset: the fire_id sequence identifier
whose rows must stay in one split, the image file, and pass-through label
columns. -/
structure SeqRow where
  fire_id : ℕ
  imgFile : String
  meta : List (String × String) := []
deriving Repr, DecidableEq

/-- Modelled from the spec: the deterministic seeded shuffle of the distinct
sequence ids (step 1 of fit), realized by seeded draws without replacement
from the id pool. -/
def shuffleIds (seed : ℕ) (ids : List ℕ) : List ℕ :=
  (drawNoRep ids.length ids (npSeed seed)).1

/-- Modelled from the spec: step 2 of fit. Subsets are filled greedily in
ratio order, each taking round(ratio * total sequence count) sequences; the
last subset receives all remaining sequences (rounding leftovers included). -/
def assignChunks : List (String × ℚ) → ℕ → List ℕ → List (String × List ℕ)
  | [], _, _ => []
  | [(name, _)], _, ids => [(name, ids)]
  | (name, r) :: q :: rest, total, ids =>
    let c := (round (r * (total : ℚ))).toNat
    (name, ids.take c) :: assignChunks (q :: rest) total (ids.drop c)

/-- Modelled from the spec: WildFireSplitter.fit. Validates the algorithm
lazily, shuffles the distinct sequence ids with the seed, assigns them
greedily to the named subsets, and materializes each subset as the rows whose
id was assigned to it. -/
def splitterFit (sp : Splitter) (rows : List SeqRow) :
    Except ConfigurationError (List (String × List SeqRow)) :=
  if sp.algorithm ∉ algorithms_allowed then .error (.unsupportedAlgorithm sp.algorithm)
  else
    let ids := shuffleIds sp.seed ((rows.map fun r => r.fire_id).dedup)
    let chunks := assignChunks sp.ratios ids.length ids
    .ok (chunks.map fun c => (c.1, rows.filter fun r => decide (r.fire_id ∈ c.2)))

theorem linspace_int_length (a b n : ℕ) : (linspace_int a b n).length = n := by
  simp [linspace_int]

theorem linspace_div_strict (d m i j : ℕ) (hm : 0 < m) (hd : m ≤ d) (hij : i < j) :
    i * d / m < j * d / m := by
  have h1 : i * d + m ≤ j * d := by
    calc i * d + m ≤ i * d + d := by omega
    _ = (i + 1) * d := by ring
    _ ≤ j * d := Nat.mul_le_mul_right d hij
  have h2 : (i * d + m) / m ≤ j * d / m := Nat.div_le_div_right h1
  have h3 : (i * d + m) / m = i * d / m + 1 := Nat.add_div_right _ hm
  omega

theorem linspace_int_pairwise (a b n : ℕ) (hab : a ≤ b) (hn : n ≤ b - a + 1) :
    List.Pairwise (· < ·) (linspace_int a b n) := by
  rcases Nat.lt_or_ge n 2 with h2 | h2
  · interval_cases n <;> simp [linspace_int]
  · have hm : 0 < n - 1 := by omega
    have hd : n - 1 ≤ b - a := by omega
    unfold linspace_int
    rw [List.pairwise_map]
    have key : ∀ i j : ℕ, i < j →
        (if n ≤ 1 then a else a + i * (b - a) / (n - 1)) <
        (if n ≤ 1 then a else a + j * (b - a) / (n - 1)) := by
      intro i j hij
      rw [if_neg (by omega), if_neg (by omega)]
      have := linspace_div_strict (b - a) (n - 1) i j hm hd hij
      omega
    exact (List.pairwise_lt_range n).imp fun h => key _ _ h

theorem linspace_int_nodup (a b n : ℕ) (hab : a ≤ b) (hn : n ≤ b - a + 1) :
    (linspace_int a b n).Nodup :=
  (linspace_int_pairwise a b n hab hn).imp fun h => ne_of_lt h

theorem linspace_int_mem (a b n : ℕ) (hab : a ≤ b) :
    ∀ x ∈ linspace_int a b n, a ≤ x ∧ x ≤ b := by
  intro x hx
  simp only [linspace_int, List.mem_map, List.mem_range] at hx
  obtain ⟨i, hi, rfl⟩ := hx
  by_cases h1 : n ≤ 1
  · rw [if_pos h1]; omega
  · rw [if_neg h1]
    refine ⟨Nat.le_add_right _ _, ?_⟩
    have him : i ≤ n - 1 := by omega
    have hle : i * (b - a) / (n - 1) ≤ (n - 1) * (b - a) / (n - 1) :=
      Nat.div_le_div_right (Nat.mul_le_mul_right _ him)
    have h2 : (n - 1) * (b - a) / (n - 1) = b - a := Nat.mul_div_cancel_left _ (by omega)
    omega

theorem linspace_int_head (a b n : ℕ) (hn : 1 ≤ n) :
    (linspace_int a b n).head? = some a := by
  obtain ⟨m, rfl⟩ : ∃ m, n = m + 1 := ⟨n - 1, by omega⟩
  simp [linspace_int, List.range_succ_eq_map]

theorem linspace_int_last (a b n : ℕ) (hab : a ≤ b) (hn : 2 ≤ n) :
    (linspace_int a b n).getLast? = some b := by
  obtain ⟨m, rfl⟩ : ∃ m, n = m + 1 := ⟨n - 1, by omega⟩
  unfold linspace_int
  rw [List.range_succ, List.map_append, List.map_cons, List.map_nil,
    List.getLast?_concat]
  rw [if_neg (by omega)]
  have h0 : 0 < m := by omega
  have hc : m * (b - a) / (m + 1 - 1) = b - a := by
    simpa using Nat.mul_div_cancel_left (b - a) h0
  rw [hc, Nat.add_sub_cancel' hab]

theorem pick_frames_evenly_eq (g seed : ℕ) (s : State) (n : ℕ) (dup : Bool)
    (h : ¬(s.stateEnd + 1 - s.stateStart < n ∧ dup = false)) :
    pick_frames g s n false dup seed =
      .ok (⟨linspace_int s.stateStart s.stateEnd n,
            decide (s.stateEnd + 1 - s.stateStart < n)⟩, npSeed seed) := by
  unfold pick_frames
  rw [if_neg (by simpa [Bool.not_eq_true] using h)]
  rfl

/-- C1 counterexample: for the segment from 0 to 10 and frame_count 4 (within
the range size, so no duplicates are involved) the evenly strategy of
_pick_frames returns [0, 3, 6, 10], whereas linear interpolation rounded to
the nearest integer, as the claim states, gives [0, 3, 7, 10]: the point at
20/3 is truncated to 6, not rounded to 7. -/
theorem evenly_round_counterexample :
    pick_frames 0 ⟨0, 10, "v.mp4", []⟩ 4 false false 42 =
      .ok (⟨[0, 3, 6, 10], false⟩, npSeed 42) ∧
    linspace_round 0 10 4 = [0, 3, 7, 10] ∧
    ([0, 3, 6, 10] : List ℕ) ≠ [0, 3, 7, 10] := by
  refine ⟨by decide, by decide, by decide⟩

/-- C1 (amended): for every segment with segment_start ≤ segment_end and every
frame_count, whenever the evenly strategy succeeds it returns the frame_count
integer points obtained by linear interpolation between segment_start and
segment_end truncated (floored) to integer, and duplicate indices occur in its
output only if frame_count exceeds the range size. -/
theorem evenly_is_floor_interpolation (g seed : ℕ) (s : State) (n : ℕ) (dup : Bool)
    (hab : s.stateStart ≤ s.stateEnd) :
    (∀ l w g2, pick_frames g s n false dup seed = .ok (⟨l, w⟩, g2) →
      l = linspace_int s.stateStart s.stateEnd n) ∧
    (n ≤ s.stateEnd - s.stateStart + 1 →
      (linspace_int s.stateStart s.stateEnd n).Nodup) := by
  constructor
  · intro l w g2 hok
    unfold pick_frames at hok
    by_cases hc : s.stateEnd + 1 - s.stateStart < n ∧ ¬(dup = true)
    · rw [if_pos hc] at hok; exact absurd hok (by simp)
    · rw [if_neg hc] at hok
      simp only [if_neg (Bool.false_ne_true), Except.ok.injEq, Prod.mk.injEq,
        PickResult.mk.injEq] at hok
      exact hok.1.1.symm
  · intro hn
    exact linspace_int_nodup _ _ _ hab hn

/-- C1 witness: the amended statement instantiated on the segment from 100 to
106 with frame_count 3. -/
theorem evenly_is_floor_interpolation_witness :
    (∀ l w g2,
      pick_frames 0 ⟨100, 106, "952.mp4", []⟩ 3 false false 42 = .ok (⟨l, w⟩, g2) →
      l = linspace_int 100 106 3) ∧
    (3 ≤ 106 - 100 + 1 → (linspace_int 100 106 3).Nodup) :=
  evenly_is_floor_interpolation 0 42 ⟨100, 106, "952.mp4", []⟩ 3 false (by decide)

/-- C3: for every segment with range size R and frame_count F ≤ R, the evenly
strategy succeeds without warning and returns F strictly increasing, in-range,
duplicate-free indices whose first element is segment_start; when F ≥ 2 the
last is segment_end, and for F = 1 the output is [segment_start]. In
particular, on the segment from 100 to 106 it returns [100, 106] for F = 2,
[100, 103, 106] for F = 3 and [100, 102, 104, 106] for F = 4. -/
theorem evenly_in_range_spec (g seed : ℕ) (s : State) (n : ℕ) (dup : Bool)
    (hab : s.stateStart ≤ s.stateEnd)
    (hn : n ≤ s.stateEnd + 1 - s.stateStart) :
    (∃ l, pick_frames g s n false dup seed = .ok (⟨l, false⟩, npSeed seed) ∧
      l.length = n ∧ List.Pairwise (· < ·) l ∧ l.Nodup ∧
      (∀ x ∈ l, s.stateStart ≤ x ∧ x ≤ s.stateEnd) ∧
      (1 ≤ n → l.head? = some s.stateStart) ∧
      (2 ≤ n → l.getLast? = some s.stateEnd) ∧
      (n = 1 → l = [s.stateStart])) ∧
    pick_frames g ⟨100, 106, "952.mp4", []⟩ 2 false dup seed =
      .ok (⟨[100, 106], false⟩, npSeed seed) ∧
    pick_frames g ⟨100, 106, "952.mp4", []⟩ 3 false dup seed =
      .ok (⟨[100, 103, 106], false⟩, npSeed seed) ∧
    pick_frames g ⟨100, 106, "952.mp4", []⟩ 4 false dup seed =
      .ok (⟨[100, 102, 104, 106], false⟩, npSeed seed) := by
  have hR : n ≤ s.stateEnd - s.stateStart + 1 := by omega
  refine ⟨⟨linspace_int s.stateStart s.stateEnd n, ?_, linspace_int_length _ _ _,
      linspace_int_pairwise _ _ _ hab hR, linspace_int_nodup _ _ _ hab hR,
      linspace_int_mem _ _ _ hab, fun h1 => linspace_int_head _ _ _ h1,
      fun h2 => linspace_int_last _ _ _ hab h2, fun h1 => by
        subst h1; simp [linspace_int]⟩, ?_, ?_, ?_⟩
  · rw [pick_frames_evenly_eq g seed s n dup fun hc => absurd hc.1 (by omega)]
    have hw : decide (s.stateEnd + 1 - s.stateStart < n) = false := by
      simp only [decide_eq_false_iff_not]; omega
    rw [hw]
  · rw [pick_frames_evenly_eq g seed ⟨100, 106, "952.mp4", []⟩ 2 dup
      fun hc => absurd hc.1 (by norm_num)]
    have hpr : (⟨linspace_int 100 106 2, decide (106 + 1 - 100 < 2)⟩ : PickResult) =
        ⟨[100, 106], false⟩ := by decide
    rw [hpr]
  · rw [pick_frames_evenly_eq g seed ⟨100, 106, "952.mp4", []⟩ 3 dup
      fun hc => absurd hc.1 (by norm_num)]
    have hpr : (⟨linspace_int 100 106 3, decide (106 + 1 - 100 < 3)⟩ : PickResult) =
        ⟨[100, 103, 106], false⟩ := by decide
    rw [hpr]
  · rw [pick_frames_evenly_eq g seed ⟨100, 106, "952.mp4", []⟩ 4 dup
      fun hc => absurd hc.1 (by norm_num)]
    have hpr : (⟨linspace_int 100 106 4, decide (106 + 1 - 100 < 4)⟩ : PickResult) =
        ⟨[100, 102, 104, 106], false⟩ := by decide
    rw [hpr]

/-- C3 witness: the specification instantiated on the segment from 100 to 106
with frame_count 3 (range size 7). -/
theorem evenly_in_range_spec_witness :
    ∃ l, pick_frames 0 ⟨100, 106, "952.mp4", []⟩ 3 false false 42 =
        .ok (⟨l, false⟩, npSeed 42) ∧
      l.length = 3 ∧ List.Pairwise (· < ·) l ∧ l.Nodup ∧
      (∀ x ∈ l, 100 ≤ x ∧ x ≤ 106) ∧
      (1 ≤ 3 → l.head? = some 100) ∧
      (2 ≤ 3 → l.getLast? = some 106) ∧
      (3 = 1 → l = [100]) :=
  (evenly_in_range_spec 0 42 ⟨100, 106, "952.mp4", []⟩ 3 false (by decide) (by decide)).1

/-- C4: for every segment whose range size is smaller than the requested
frame_count, _pick_frames with allow_duplicates = false raises the
InsufficientRange ValueError naming the offending segment's video, for either
strategy. -/
theorem insufficient_range_error_spec (g seed : ℕ) (s : State) (n : ℕ) (random : Bool)
    (h : s.stateEnd + 1 - s.stateStart < n) :
    pick_frames g s n random false seed =
      .error ⟨s.stateEnd + 1 - s.stateStart, n, s.fBase⟩ := by
  unfold pick_frames
  rw [if_pos ⟨h, by simp⟩]

/-- C4 witness: the segment from 100 to 106 (range size 7) with frame_count 8
fails with the InsufficientRange error for the random strategy. -/
theorem insufficient_range_error_spec_witness :
    pick_frames 0 ⟨100, 106, "952.mp4", []⟩ 8 true false 42 =
      .error ⟨7, 8, "952.mp4"⟩ :=
  insufficient_range_error_spec 0 42 ⟨100, 106, "952.mp4", []⟩ 8 true (by decide)

theorem drawRep_length (lo len : ℕ) : ∀ (n g : ℕ), (drawRep lo len n g).1.length = n
  | 0, _ => rfl
  | n + 1, g => by simp [drawRep, drawRep_length lo len n]

theorem drawNoRep_length : ∀ (n : ℕ) (pool : List ℕ) (g : ℕ),
    (drawNoRep n pool g).1.length = n
  | 0, _, _ => rfl
  | n + 1, pool, g => by simp [drawNoRep, drawNoRep_length n]

theorem npChoice_length (g lo len n : ℕ) (replace : Bool) :
    (npChoice g lo len n replace).1.length = n := by
  unfold npChoice
  cases replace <;> simp [drawRep_length, drawNoRep_length]

theorem pick_frames_ok_spec (g seed : ℕ) (s : State) (n : ℕ) (random dup : Bool)
    (r : PickResult) (g2 : ℕ)
    (hok : pick_frames g s n random dup seed = .ok (r, g2)) :
    r.warned = decide (s.stateEnd + 1 - s.stateStart < n) ∧
    (s.stateEnd + 1 - s.stateStart < n → dup = true) ∧
    r.frames.length = n := by
  unfold pick_frames at hok
  by_cases hc : s.stateEnd + 1 - s.stateStart < n ∧ ¬(dup = true)
  · rw [if_pos hc] at hok
    exact absurd hok (by simp)
  · rw [if_neg hc] at hok
    have hdup : s.stateEnd + 1 - s.stateStart < n → dup = true := by
      intro hlt
      by_contra hd
      exact hc ⟨hlt, hd⟩
    by_cases hr : random = true
    · rw [if_pos hr] at hok
      simp only [Except.ok.injEq, Prod.mk.injEq] at hok
      rw [← hok.1]
      exact ⟨rfl, hdup, npChoice_length _ _ _ _ _⟩
    · rw [if_neg hr] at hok
      simp only [Except.ok.injEq, Prod.mk.injEq] at hok
      rw [← hok.1]
      exact ⟨rfl, hdup, linspace_int_length _ _ _⟩

theorem pick_frames_dup_ok (g seed : ℕ) (s : State) (n : ℕ) (random : Bool) :
    ∃ r g2, pick_frames g s n random true seed = .ok (r, g2) := by
  unfold pick_frames
  rw [if_neg (by simp)]
  cases random
  · exact ⟨_, _, rfl⟩
  · exact ⟨_, _, rfl⟩

/-- C5: _pick_frames emits its duplicate warning if and only if the requested
frame_count exceeds the range size and allow_duplicates is true; in that case
it succeeds returning frame_count indices, and for the random strategy with
allow_duplicates the draw is np.random.choice with replace = true; when
frame_count is within the range size no warning is emitted. -/
theorem duplicate_warning_spec (g seed : ℕ) (s : State) (n : ℕ) (random dup : Bool) :
    (∀ r g2, pick_frames g s n random dup seed = .ok (r, g2) →
      (r.warned = true ↔ (s.stateEnd + 1 - s.stateStart < n ∧ dup = true))) ∧
    (dup = true → ∃ r g2, pick_frames g s n random dup seed = .ok (r, g2) ∧
      r.frames.length = n) ∧
    (random = true → dup = true →
      pick_frames g s n random dup seed =
        .ok (⟨(drawRep s.stateStart (s.stateEnd + 1 - s.stateStart) n (npSeed seed)).1,
              decide (s.stateEnd + 1 - s.stateStart < n)⟩,
          (drawRep s.stateStart (s.stateEnd + 1 - s.stateStart) n (npSeed seed)).2)) := by
  refine ⟨?_, ?_, ?_⟩
  · intro r g2 hok
    obtain ⟨hw, hdup, _⟩ := pick_frames_ok_spec g seed s n random dup r g2 hok
    rw [hw]
    simp only [decide_eq_true_eq]
    exact ⟨fun hlt => ⟨hlt, hdup hlt⟩, fun hp => hp.1⟩
  · intro hd
    subst hd
    obtain ⟨r, g2, hok⟩ := pick_frames_dup_ok g seed s n random
    exact ⟨r, g2, hok, (pick_frames_ok_spec g seed s n random true r g2 hok).2.2⟩
  · intro hr hd
    subst hr; subst hd
    unfold pick_frames
    rw [if_neg (by simp)]
    rfl

/-- C5 witness: the segment from 100 to 106 (range size 7) with frame_count 8,
allow_duplicates = true and the random strategy succeeds with 8 indices and
the warning emitted. -/
theorem duplicate_warning_spec_witness :
    ∃ r g2, pick_frames 0 ⟨100, 106, "952.mp4", []⟩ 8 true true 42 = .ok (r, g2) ∧
      r.frames.length = 8 ∧ r.warned = true := by
  obtain ⟨r, g2, hok, hlen⟩ :=
    (duplicate_warning_spec 0 42 ⟨100, 106, "952.mp4", []⟩ 8 true true).2.1 rfl
  refine ⟨r, g2, hok, hlen, ?_⟩
  exact ((duplicate_warning_spec 0 42 ⟨100, 106, "952.mp4", []⟩ 8 true true).1 r g2
    hok).mpr ⟨by decide, rfl⟩

theorem pick_frames_framesOf_congr (g seed n : ℕ) (random dup : Bool) (s t : State)
    (h1 : s.stateStart = t.stateStart) (h2 : s.stateEnd = t.stateEnd) :
    framesOf (pick_frames g s n random dup seed) =
      framesOf (pick_frames g t n random dup seed) := by
  unfold pick_frames
  rw [h1, h2]
  by_cases hc : t.stateEnd + 1 - t.stateStart < n ∧ ¬(dup = true)
  · rw [if_pos hc, if_pos hc]
    rfl
  · rw [if_neg hc, if_neg hc]

theorem pickAll_ok_spec (n : ℕ) (random dup : Bool) (seed : ℕ)
    (states : List State) :
    ∀ (g g2 : ℕ) (fl : List (List ℕ)),
      pickAll n random dup seed g states = .ok (fl, g2) →
      fl.length = states.length ∧
      ∀ i, i < states.length →
        some (fl.getD i []) =
          framesOf (pick_frames 0 (states.getD i ⟨0, 0, "", []⟩) n random dup seed) := by
  induction states with
  | nil =>
    intro g g2 fl h
    simp only [pickAll, Except.ok.injEq, Prod.mk.injEq] at h
    obtain ⟨h1, _⟩ := h
    subst h1
    refine ⟨rfl, ?_⟩
    intro i hi
    simp at hi
  | cons s rest ih =>
    intro g g2 fl h
    simp only [pickAll] at h
    split at h
    · exact absurd h (by simp)
    · rename_i r g3 hp
      split at h
      · exact absurd h (by simp)
      · rename_i l g4 hq
        simp only [Except.ok.injEq, Prod.mk.injEq] at h
        obtain ⟨hfl, _⟩ := h
        obtain ⟨ihlen, ihget⟩ := ih g3 g4 l hq
        subst hfl
        refine ⟨by simp [ihlen], ?_⟩
        intro i hi
        cases i with
        | zero =>
          have hg : pick_frames 0 s n random dup seed = .ok (r, g3) := hp
          simp only [List.getD_cons_zero, hg, framesOf]
        | succ k =>
          simp only [List.getD_cons_succ]
          exact ihget k (by simpa using hi)

/-- C10: because _pick_frames reseeds the global generator with the caller's
seed on every call, the frames pickAll selects for the i-th state depend only
on the seed, the sampling parameters and that state's own range, not on the
incoming generator state or on the states processed before it; in particular
two states of one table with equal stateStart and stateEnd receive identical
selections. -/
theorem per_state_reseed_independence (n : ℕ) (random dup : Bool) (seed g g2 : ℕ)
    (states : List State) (fl : List (List ℕ))
    (h : pickAll n random dup seed g states = .ok (fl, g2)) :
    fl.length = states.length ∧
    (∀ i, i < states.length →
      some (fl.getD i []) =
        framesOf (pick_frames 0 (states.getD i ⟨0, 0, "", []⟩) n random dup seed)) ∧
    (∀ i j, i < states.length → j < states.length →
      (states.getD i ⟨0, 0, "", []⟩).stateStart = (states.getD j ⟨0, 0, "", []⟩).stateStart →
      (states.getD i ⟨0, 0, "", []⟩).stateEnd = (states.getD j ⟨0, 0, "", []⟩).stateEnd →
      fl.getD i [] = fl.getD j []) := by
  obtain ⟨hlen, hget⟩ := pickAll_ok_spec n random dup seed states g g2 fl h
  refine ⟨hlen, hget, ?_⟩
  intro i j hi hj hstart hend
  have hcongr := pick_frames_framesOf_congr 0 seed n random dup
    (states.getD i ⟨0, 0, "", []⟩) (states.getD j ⟨0, 0, "", []⟩) hstart hend
  have := (hget i hi).trans (hcongr.trans (hget j hj).symm)
  exact Option.some.inj this

/-- C10 witness: two states with the same range 5..9 but different videos, in
one table, receive the same random selection with seed 7. -/
theorem per_state_reseed_independence_witness :
    pickAll 3 true false 7 0 [⟨5, 9, "a.mp4", []⟩, ⟨5, 9, "b.mp4", []⟩] =
      .ok ([[8, 9, 5], [8, 9, 5]], 16723372171710603212) ∧
    ([[8, 9, 5], [8, 9, 5]] : List (List ℕ)).getD 0 [] =
      ([[8, 9, 5], [8, 9, 5]] : List (List ℕ)).getD 1 [] := by
  constructor
  · decide
  · exact (per_state_reseed_independence 3 true false 7 0 16723372171710603212
      [⟨5, 9, "a.mp4", []⟩, ⟨5, 9, "b.mp4", []⟩] [[8, 9, 5], [8, 9, 5]]
      (by decide)).2.2 0 1 (by decide) (by decide) (by decide) (by decide)

/-- C6: _pick_frames is deterministic: because np.random.seed(seed) is called
at entry, two calls with identical segment, frame_count, strategy,
allow_duplicates flag and seed return identical results whatever the incoming
global generator states were. -/
theorem pick_frames_deterministic (g1 g2 : ℕ) (s : State) (n : ℕ)
    (random allow_duplicates : Bool) (seed : ℕ) :
    pick_frames g1 s n random allow_duplicates seed =
      pick_frames g2 s n random allow_duplicates seed := rfl

theorem charListLe_total : ∀ a b : List Char,
    charListLe a b = true ∨ charListLe b a = true
  | [], _ => Or.inl rfl
  | _ :: _, [] => Or.inr rfl
  | a :: as, b :: bs => by
    by_cases hab : a = b
    · subst hab
      simp only [charListLe, if_pos rfl]
      exact charListLe_total as bs
    · simp only [charListLe, if_neg hab, if_neg (Ne.symm hab)]
      rcases Nat.lt_or_ge a.toNat b.toNat with h | h
      · exact Or.inl (decide_eq_true h)
      · rcases Nat.lt_or_ge b.toNat a.toNat with h2 | h2
        · exact Or.inr (decide_eq_true h2)
        · have he : a.toNat = b.toNat := by omega
          exact absurd (Char.ext (UInt32.ext he)) hab

theorem charListLe_trans : ∀ a b c : List Char, charListLe a b = true →
    charListLe b c = true → charListLe a c = true
  | [], _, _, _, _ => rfl
  | _ :: _, [], _, hab, _ => by simp [charListLe] at hab
  | _ :: _, _ :: _, [], _, hbc => by simp [charListLe] at hbc
  | x :: xs, y :: ys, z :: zs, hab, hbc => by
    simp only [charListLe] at hab hbc ⊢
    by_cases hxy : x = y
    · subst hxy
      rw [if_pos rfl] at hab
      by_cases hyz : x = z
      · subst hyz
        rw [if_pos rfl] at hbc ⊢
        exact charListLe_trans xs ys zs hab hbc
      · rw [if_neg hyz] at hbc ⊢
        exact hbc
    · rw [if_neg hxy] at hab
      have hxyn : x.toNat < y.toNat := of_decide_eq_true hab
      by_cases hyz : y = z
      · subst hyz
        rw [if_neg hxy]
        exact decide_eq_true hxyn
      · rw [if_neg hyz] at hbc
        have hyzn : y.toNat < z.toNat := of_decide_eq_true hbc
        have hxz : x.toNat < z.toNat := hxyn.trans hyzn
        have hxzne : x ≠ z := fun he => by rw [he] at hxyn; omega
        rw [if_neg hxzne]
        exact decide_eq_true hxz

theorem charListLe_antisymm : ∀ a b : List Char, charListLe a b = true →
    charListLe b a = true → a = b
  | [], [], _, _ => rfl
  | [], _ :: _, _, hba => by simp [charListLe] at hba
  | _ :: _, [], hab, _ => by simp [charListLe] at hab
  | x :: xs, y :: ys, hab, hba => by
    by_cases hxy : x = y
    · subst hxy
      simp only [charListLe, if_pos rfl] at hab hba
      rw [charListLe_antisymm xs ys hab hba]
    · simp only [charListLe, if_neg hxy, if_neg (Ne.symm hxy)] at hab hba
      have h1 : x.toNat < y.toNat := of_decide_eq_true hab
      have h2 : y.toNat < x.toNat := of_decide_eq_true hba
      omega

theorem strLe_total (a b : String) : strLe a b = true ∨ strLe b a = true :=
  charListLe_total a.data b.data

theorem strLe_trans (a b c : String) (h1 : strLe a b = true) (h2 : strLe b c = true) :
    strLe a c = true :=
  charListLe_trans a.data b.data c.data h1 h2

theorem strLe_antisymm (a b : String) (h1 : strLe a b = true) (h2 : strLe b a = true) :
    a = b :=
  String.ext (charListLe_antisymm a.data b.data h1 h2)

theorem labelLe_total : ∀ x y : LabelRow, labelLe x y = true ∨ labelLe y x = true := by
  intro x y
  unfold labelLe
  by_cases hf : x.state.fBase = y.state.fBase
  · rw [if_pos hf, if_pos hf.symm]
    rcases Nat.le_total x.frame y.frame with h | h
    · exact Or.inl (decide_eq_true h)
    · exact Or.inr (decide_eq_true h)
  · rw [if_neg hf, if_neg (Ne.symm hf)]
    exact strLe_total _ _

theorem labelLe_trans : ∀ x y z : LabelRow, labelLe x y = true →
    labelLe y z = true → labelLe x z = true := by
  intro x y z h1 h2
  unfold labelLe at h1 h2 ⊢
  by_cases hxy : x.state.fBase = y.state.fBase
  · rw [if_pos hxy] at h1
    by_cases hyz : y.state.fBase = z.state.fBase
    · rw [if_pos hyz] at h2
      rw [if_pos (hxy.trans hyz)]
      have n1 : x.frame ≤ y.frame := of_decide_eq_true h1
      have n2 : y.frame ≤ z.frame := of_decide_eq_true h2
      exact decide_eq_true (n1.trans n2)
    · rw [if_neg hyz] at h2
      have hxz : x.state.fBase ≠ z.state.fBase := fun he => hyz (hxy.symm.trans he)
      rw [if_neg hxz, hxy]
      exact h2
  · rw [if_neg hxy] at h1
    by_cases hyz : y.state.fBase = z.state.fBase
    · rw [if_neg (fun he => hxy (he.trans hyz.symm) : x.state.fBase ≠ z.state.fBase)]
      rw [← hyz]
      exact h1
    · rw [if_neg hyz] at h2
      by_cases hxz : x.state.fBase = z.state.fBase
      · exfalso
        apply hxy
        have h2x : strLe y.state.fBase x.state.fBase = true := by rw [hxz]; exact h2
        exact strLe_antisymm _ _ h1 h2x
      · rw [if_neg hxz]
        exact strLe_trans _ _ _ h1 h2

theorem meltRows_length (states : List State) (fl : List (List ℕ)) (n : ℕ)
    (hlen : fl.length = states.length) :
    (meltRows states fl n).length = states.length * n := by
  unfold meltRows
  rw [List.length_flatMap]
  simp only [Function.comp_def]
  have hz : (states.zip fl).length = states.length := by
    rw [List.length_zip, hlen]
    omega
  have hmap : (List.range n).map (fun v =>
      ((states.zip fl).map fun p => mkLabelRow p.1 (p.2.getD v 0)).length) =
      (List.range n).map fun _ => states.length := by
    apply List.map_congr_left
    intro v _
    rw [List.length_map, hz]
  rw [hmap]
  induction n with
  | zero => simp
  | succ m ihm => rw [List.range_succ, List.map_append, List.sum_append]; simp [ihm]; ring

theorem mem_meltRows (states : List State) (fl : List (List ℕ)) (n : ℕ)
    (r : LabelRow) (hr : r ∈ meltRows states fl n) :
    ∃ s f, s ∈ states ∧ r = mkLabelRow s f := by
  unfold meltRows at hr
  rw [List.mem_flatMap] at hr
  obtain ⟨v, _, hv⟩ := hr
  rw [List.mem_map] at hv
  obtain ⟨p, hp, rfl⟩ := hv
  obtain ⟨p1, p2⟩ := p
  exact ⟨p1, p2.getD v 0, (List.of_mem_zip hp).1, rfl⟩

/-- C9: whenever _get_frame_labels succeeds, the label table it returns has
one row per extracted frame (number of states times n_frames), is sorted by
source video fBase then frame index, keeps each row's original state columns
unchanged, derives imgFile as stem(fBase) + "_frame" + frame + ".png", and is
a permutation of the melted selection rows. -/
theorem frame_labels_table_spec (g seed n : ℕ) (states : List State)
    (random dup : Bool) (labels : List LabelRow) (g2 : ℕ)
    (h : get_frame_labels g states n random dup seed = .ok (labels, g2)) :
    labels.length = states.length * n ∧
    List.Sorted (fun x y => labelLe x y = true) labels ∧
    (∀ r ∈ labels, r.state ∈ states ∧
      r.imgFile = stem r.state.fBase ++ "_frame" ++ toString r.frame ++ ".png") ∧
    ∃ fl g3, pickAll n random dup seed g states = .ok (fl, g3) ∧
      labels.Perm (meltRows states fl n) := by
  unfold get_frame_labels at h
  split at h
  · exact absurd h (by simp)
  · rename_i fl g3 hq
    simp only [Except.ok.injEq, Prod.mk.injEq] at h
    obtain ⟨hl, hg⟩ := h
    subst hl
    have hperm : (List.insertionSort (fun x y => labelLe x y = true)
        (meltRows states fl n)).Perm (meltRows states fl n) :=
      List.perm_insertionSort _ _
    have hlen : fl.length = states.length :=
      (pickAll_ok_spec n random dup seed states g g3 fl hq).1
    refine ⟨?_, ?_, ?_, fl, g3, hq, hperm⟩
    · rw [hperm.length_eq]
      exact meltRows_length states fl n hlen
    · exact @List.sorted_insertionSort _ _ _ ⟨labelLe_total⟩
        ⟨fun a b c => labelLe_trans a b c⟩ _
    · intro r hrmem
      obtain ⟨s, f, hs, rfl⟩ :=
        mem_meltRows states fl n r (hperm.mem_iff.mp hrmem)
      exact ⟨hs, rfl⟩

/-- C9 witness: one state (100..106 in 952.mp4) with the evenly strategy and
n_frames = 2 yields the two-row sorted label table. -/
theorem frame_labels_table_spec_witness :
    ([⟨⟨100, 106, "952.mp4", []⟩, 100, "952_frame100.png"⟩,
      ⟨⟨100, 106, "952.mp4", []⟩, 106, "952_frame106.png"⟩] : List LabelRow).length =
      ([⟨100, 106, "952.mp4", []⟩] : List State).length * 2 ∧
    List.Sorted (fun x y => labelLe x y = true)
      [⟨⟨100, 106, "952.mp4", []⟩, 100, "952_frame100.png"⟩,
       ⟨⟨100, 106, "952.mp4", []⟩, 106, "952_frame106.png"⟩] := by
  have h := frame_labels_table_spec 0 42 2 [⟨100, 106, "952.mp4", []⟩] false false
    [⟨⟨100, 106, "952.mp4", []⟩, 100, "952_frame100.png"⟩,
     ⟨⟨100, 106, "952.mp4", []⟩, 106, "952_frame106.png"⟩] 42 (by decide)
  exact ⟨h.1, h.2.1⟩

theorem writeLoop_all_ok (readable : String → ℕ → Bool) :
    ∀ (rows : List LabelRow) (fs : List String),
      (∀ r ∈ rows, readable r.state.fBase r.frame = true) →
      writeLoop readable rows fs = (none, fs ++ rows.map fun r => r.imgFile)
  | [], fs, _ => by simp [writeLoop]
  | r :: rest, fs, hall => by
    have hr : readable r.state.fBase r.frame = true := hall r (by simp)
    simp only [writeLoop, hr, if_true]
    rw [writeLoop_all_ok readable rest (fs ++ [r.imgFile])
      fun x hx => hall x (by simp [hx])]
    simp

theorem writeLoop_err (readable : String → ℕ → Bool) :
    ∀ (rows : List LabelRow) (fs : List String) (e : FrameReadError) (fs2 : List String),
      writeLoop readable rows fs = (some e, fs2) →
      fs2 = fs ++ ((rows.takeWhile fun r => readable r.state.fBase r.frame).map
        fun r => r.imgFile)
  | [], fs, e, fs2, h => by simp [writeLoop] at h
  | r :: rest, fs, e, fs2, h => by
    by_cases hr : readable r.state.fBase r.frame = true
    · simp only [writeLoop, hr, if_true] at h
      have := writeLoop_err readable rest (fs ++ [r.imgFile]) e fs2 h
      simp only [List.takeWhile_cons, hr, if_true, List.map_cons, this]
      simp
    · have hrf : readable r.state.fBase r.frame = false := by
        rw [← Bool.not_eq_true]
        exact hr
      simp only [writeLoop, hrf, Bool.false_eq_true, if_false, Prod.mk.injEq] at h
      simp only [List.takeWhile_cons, hrf, Bool.false_eq_true, if_false, List.map_nil]
      rw [← h.2]
      simp

/-- C2 counterexample: one state covering frames 100..101 of v.mp4, n_frames
= 2, with frame 101 unreadable: run aborts with the FrameReadError, yet the
labels CSV and the first frame image remain on the (initially empty)
filesystem, so the operation is not all-or-nothing. -/
theorem run_partial_results_counterexample :
    run (fun _ f => decide (f ≠ 101)) [⟨100, 101, "v.mp4", []⟩] "st" false 2 false 42 0 [] =
      (some (.frameRead ⟨101, "v.mp4"⟩), ["st.labels.csv", "v_frame100.png"]) ∧
    (["st.labels.csv", "v_frame100.png"] : List String) ≠ ([] : List String) :=
  ⟨by decide, by decide⟩

/-- C2 (amended): errors detected during frame selection abort run before
anything is written, leaving the filesystem unchanged; when every requested
frame is readable, run writes the labels CSV and every frame; but when a frame
read fails mid-write, run aborts with the FrameReadError while the labels CSV
and the frames already written remain behind (no rollback). -/
theorem run_atomicity_scope (readable : String → ℕ → Bool) (states : List State)
    (basename : String) (random : Bool) (n : ℕ) (dup : Bool) (seed g : ℕ)
    (fs : List String) :
    (∀ e, get_frame_labels g states n random dup seed = .error e →
      run readable states basename random n dup seed g fs =
        (some (.insufficientRange e), fs)) ∧
    (∀ labels g2, get_frame_labels g states n random dup seed = .ok (labels, g2) →
      (∀ r ∈ groupby_rows labels, readable r.state.fBase r.frame = true) →
      run readable states basename random n dup seed g fs =
        (none, (fs ++ [basename ++ ".labels.csv"]) ++
          ((groupby_rows labels).map fun r => r.imgFile))) ∧
    (∀ labels g2 e fs2, get_frame_labels g states n random dup seed = .ok (labels, g2) →
      run readable states basename random n dup seed g fs =
        (some (.frameRead e), fs2) →
      fs2 = (fs ++ [basename ++ ".labels.csv"]) ++
        (((groupby_rows labels).takeWhile fun r => readable r.state.fBase r.frame).map
          fun r => r.imgFile)) := by
  refine ⟨?_, ?_, ?_⟩
  · intro e he
    unfold run
    rw [he]
  · intro labels g2 hok hall
    unfold run
    rw [hok]
    show (match writeLoop readable (groupby_rows labels)
        (fs ++ [basename ++ ".labels.csv"]) with
      | (some e, fs2) => (some (RunError.frameRead e), fs2)
      | (none, fs2) => (none, fs2)) = _
    rw [writeLoop_all_ok readable (groupby_rows labels)
      (fs ++ [basename ++ ".labels.csv"]) hall]
  · intro labels g2 e fs2 hok hrun
    unfold run at hrun
    rw [hok] at hrun
    have hrun2 : (match writeLoop readable (groupby_rows labels)
        (fs ++ [basename ++ ".labels.csv"]) with
      | (some e, fs2) => (some (RunError.frameRead e), fs2)
      | (none, fs2) => (none, fs2)) = (some (RunError.frameRead e), fs2) := hrun
    cases hw : writeLoop readable (groupby_rows labels)
        (fs ++ [basename ++ ".labels.csv"]) with
    | mk oe wfs =>
      rw [hw] at hrun2
      cases oe with
      | none => exact absurd hrun2 (by simp)
      | some e2 =>
        simp only [Prod.mk.injEq, Option.some.injEq, RunError.frameRead.injEq] at hrun2
        rw [← hrun2.2]
        exact writeLoop_err readable (groupby_rows labels)
          (fs ++ [basename ++ ".labels.csv"]) e2 wfs hw

/-- C2 witness: the amended statement applied to the failing input of the
counterexample: the leftover filesystem is exactly the labels CSV plus the
frames written before the failure. -/
theorem run_atomicity_scope_witness :
    (["st.labels.csv", "v_frame100.png"] : List String) =
      (([] ++ ["st" ++ ".labels.csv"]) ++
        (((groupby_rows [⟨⟨100, 101, "v.mp4", []⟩, 100, "v_frame100.png"⟩,
            ⟨⟨100, 101, "v.mp4", []⟩, 101, "v_frame101.png"⟩]).takeWhile
              fun r => decide (r.frame ≠ 101)).map fun r => r.imgFile)) :=
  (run_atomicity_scope (fun _ f => decide (f ≠ 101)) [⟨100, 101, "v.mp4", []⟩] "st"
      false 2 false 42 0 []).2.2
    [⟨⟨100, 101, "v.mp4", []⟩, 100, "v_frame100.png"⟩,
     ⟨⟨100, 101, "v.mp4", []⟩, 101, "v_frame101.png"⟩] 42 ⟨101, "v.mp4"⟩
    ["st.labels.csv", "v_frame100.png"] (by decide) (by decide)

/-- C7: the splitter rejects ratios summing to more than 1 at construction
with ConfigurationError, while an unsupported algorithm name is accepted at
construction and rejected with ConfigurationError only when fit is called. -/
theorem splitter_validation_spec (ratios : List (String × ℚ)) (alg : String)
    (seed : ℕ) (rows : List SeqRow) :
    (1 < (ratios.map Prod.snd).sum →
      splitterInit ratios alg seed = .error .ratiosExceedOne) ∧
    ((ratios.map Prod.snd).sum ≤ 1 →
      splitterInit ratios alg seed = .ok ⟨ratios, alg, seed⟩) ∧
    (alg ∉ algorithms_allowed →
      splitterFit ⟨ratios, alg, seed⟩ rows = .error (.unsupportedAlgorithm alg)) := by
  refine ⟨?_, ?_, ?_⟩
  · intro h
    unfold splitterInit
    rw [if_pos h]
  · intro h
    unfold splitterInit
    rw [if_neg (not_lt.mpr h)]
  · intro h
    unfold splitterFit
    rw [if_pos h]

/-- C7 witness: the test's over-committed ratios 0.9/0.2/0.1 fail at
construction; the unsupported algorithm wtf passes construction with valid
ratios 0.7/0.15/0.15 and fails at fit. -/
theorem splitter_validation_spec_witness :
    splitterInit [("train", (9 : ℚ)/10), ("val", 2/10), ("test", 1/10)] "auto" 42 =
      .error .ratiosExceedOne ∧
    splitterInit [("train", (7 : ℚ)/10), ("val", 15/100), ("test", 15/100)] "wtf" 42 =
      .ok ⟨[("train", (7 : ℚ)/10), ("val", 15/100), ("test", 15/100)], "wtf", 42⟩ ∧
    splitterFit ⟨[("train", (7 : ℚ)/10), ("val", 15/100), ("test", 15/100)], "wtf", 42⟩ [] =
      .error (.unsupportedAlgorithm "wtf") :=
  ⟨(splitter_validation_spec _ "auto" 42 []).1
      (by norm_num [List.map_cons, List.map_nil, List.sum_cons, List.sum_nil]),
    (splitter_validation_spec _ "wtf" 42 []).2.1
      (by norm_num [List.map_cons, List.map_nil, List.sum_cons, List.sum_nil]),
    (splitter_validation_spec _ "wtf" 42 []).2.2 (by decide)⟩

theorem drawNoRep_perm : ∀ (n : ℕ) (pool : List ℕ) (g : ℕ), n = pool.length →
    ((drawNoRep n pool g).1).Perm pool
  | 0, pool, g, h => by
    rw [List.eq_nil_of_length_eq_zero h.symm]
    simp [drawNoRep]
  | n + 1, pool, g, h => by
    simp only [drawNoRep]
    have hlt : (rngNext g).1 % pool.length < pool.length := Nat.mod_lt _ (by omega)
    have hperm := drawNoRep_perm n (pool.eraseIdx ((rngNext g).1 % pool.length))
      (rngNext g).2 (by rw [List.length_eraseIdx, if_pos hlt]; omega)
    rw [List.getD_eq_getElem pool 0 hlt]
    refine (hperm.cons _).trans ?_
    rw [List.eraseIdx_eq_take_drop_succ]
    have hmid : (List.take ((rngNext g).1 % pool.length) pool ++
        pool[(rngNext g).1 % pool.length] ::
          List.drop ((rngNext g).1 % pool.length + 1) pool).Perm
        (pool[(rngNext g).1 % pool.length] ::
          (List.take ((rngNext g).1 % pool.length) pool ++
            List.drop ((rngNext g).1 % pool.length + 1) pool)) := List.perm_middle
    refine hmid.symm.trans ?_
    rw [List.getElem_cons_drop, List.take_append_drop]

theorem shuffleIds_perm (seed : ℕ) (ids : List ℕ) : (shuffleIds seed ids).Perm ids :=
  drawNoRep_perm ids.length ids (npSeed seed) rfl

theorem assignChunks_flatMap : ∀ (ps : List (String × ℚ)) (total : ℕ) (l : List ℕ),
    ps ≠ [] → ((assignChunks ps total l).map Prod.snd).flatten = l
  | [], _, _, h => absurd rfl h
  | [(_, _)], _, l, _ => by simp [assignChunks]
  | (name, r) :: q :: rest, total, l, _ => by
    simp only [assignChunks, List.map_cons, List.flatten_cons]
    rw [assignChunks_flatMap (q :: rest) total
      (l.drop ((round (r * (total : ℚ))).toNat)) (by simp)]
    exact List.take_append_drop _ l

/-- C8: whenever splitterFit succeeds with a nonempty ratio list, the produced
subsets partition the dataset: no row belongs to two subsets, a row is in the
input exactly when it is in some subset, and no sequence identifier appears in
two different subsets. -/
theorem splitter_partition_spec (sp : Splitter) (rows : List SeqRow)
    (subsets : List (String × List SeqRow))
    (hne : sp.ratios ≠ [])
    (h : splitterFit sp rows = .ok subsets) :
    (∀ i j, ∀ (hi : i < subsets.length) (hj : j < subsets.length), i ≠ j →
      ∀ r, r ∈ (subsets.get ⟨i, hi⟩).2 → r ∉ (subsets.get ⟨j, hj⟩).2) ∧
    (∀ r, r ∈ rows ↔ ∃ p ∈ subsets, r ∈ p.2) ∧
    (∀ i j, ∀ (hi : i < subsets.length) (hj : j < subsets.length),
      ∀ r s, r ∈ (subsets.get ⟨i, hi⟩).2 → s ∈ (subsets.get ⟨j, hj⟩).2 →
      r.fire_id = s.fire_id → i = j) := by
  unfold splitterFit at h
  split at h
  · exact absurd h (by simp)
  · simp only [Except.ok.injEq] at h
    set F := (fun c : String × List ℕ =>
      (c.1, rows.filter fun r => decide (r.fire_id ∈ c.2))) with hF
    set ids := shuffleIds sp.seed ((rows.map fun r => r.fire_id).dedup) with hids
    set chunks := assignChunks sp.ratios ids.length ids with hchunks
    have hnodup : ids.Nodup :=
      ((shuffleIds_perm sp.seed _).symm).nodup (List.nodup_dedup _)
    have hflat : ((chunks.map Prod.snd).flatten) = ids :=
      assignChunks_flatMap sp.ratios ids.length ids hne
    have hfn : ((chunks.map Prod.snd).flatten).Nodup := by
      rw [hflat]; exact hnodup
    have hdisj := (List.nodup_flatten.mp hfn).2
    subst h
    have hthird : ∀ i j, ∀ (hi : i < (chunks.map F).length)
        (hj : j < (chunks.map F).length),
        ∀ r s, r ∈ ((chunks.map F).get ⟨i, hi⟩).2 →
          s ∈ ((chunks.map F).get ⟨j, hj⟩).2 → r.fire_id = s.fire_id → i = j := by
      intro i j hi hj r s hr hs hid
      have hi2 : i < chunks.length := by simpa using hi
      have hj2 : j < chunks.length := by simpa using hj
      simp only [List.get_eq_getElem, List.getElem_map, hF, List.mem_filter] at hr hs
      have hmi : r.fire_id ∈ chunks[i].2 := of_decide_eq_true hr.2
      have hmj : r.fire_id ∈ chunks[j].2 := by
        rw [hid]; exact of_decide_eq_true hs.2
      by_contra hij
      rcases Nat.lt_or_ge i j with hlt | hge
      · have hd := List.pairwise_iff_getElem.mp hdisj i j
          (by simpa using hi2) (by simpa using hj2) hlt
        rw [List.getElem_map, List.getElem_map] at hd
        exact hd hmi hmj
      · have hlt2 : j < i := by omega
        have hd := List.pairwise_iff_getElem.mp hdisj j i
          (by simpa using hj2) (by simpa using hi2) hlt2
        rw [List.getElem_map, List.getElem_map] at hd
        exact hd hmj hmi
    refine ⟨?_, ?_, hthird⟩
    · intro i j hi hj hij r hri hrj
      exact hij (hthird i j hi hj r r hri hrj rfl)
    · intro r
      constructor
      · intro hrrows
        have hid1 : r.fire_id ∈ (rows.map fun x => x.fire_id).dedup := by
          rw [List.mem_dedup]
          exact List.mem_map_of_mem _ hrrows
        have hid2 : r.fire_id ∈ ids := (shuffleIds_perm sp.seed _).mem_iff.mpr hid1
        have hid3 : r.fire_id ∈ ((chunks.map Prod.snd).flatten) := by
          rw [hflat]; exact hid2
        rw [List.mem_flatten] at hid3
        obtain ⟨l, hl, hal⟩ := hid3
        rw [List.mem_map] at hl
        obtain ⟨c, hc, rfl⟩ := hl
        refine ⟨F c, List.mem_map_of_mem _ hc, ?_⟩
        rw [hF]
        rw [List.mem_filter]
        exact ⟨hrrows, decide_eq_true hal⟩
      · intro hex
        obtain ⟨p, hp, hrp⟩ := hex
        rw [List.mem_map] at hp
        obtain ⟨c, hc, rfl⟩ := hp
        rw [hF] at hrp
        exact (List.mem_filter.mp hrp).1

/-- C8 witness: one ratio taking everything, three rows over two sequence ids:
every input row lies in some produced subset. -/
theorem splitter_partition_spec_witness :
    (⟨3, "a.png", []⟩ : SeqRow) ∈
        ([⟨3, "a.png", []⟩, ⟨4, "b.png", []⟩, ⟨3, "c.png", []⟩] : List SeqRow) ↔
      ∃ p ∈ ([("train",
          [⟨3, "a.png", []⟩, ⟨4, "b.png", []⟩, ⟨3, "c.png", []⟩])] :
            List (String × List SeqRow)),
        (⟨3, "a.png", []⟩ : SeqRow) ∈ p.2 :=
  (splitter_partition_spec ⟨[("train", 1)], "auto", 42⟩
    [⟨3, "a.png", []⟩, ⟨4, "b.png", []⟩, ⟨3, "c.png", []⟩]
    [("train", [⟨3, "a.png", []⟩, ⟨4, "b.png", []⟩, ⟨3, "c.png", []⟩])]
    (by simp) (by decide)).2.1 ⟨3, "a.png", []⟩
